import Mathlib

/-!
Verification of the page-generation and naming pipeline of `build_site.py`
(GeomechMotion/animations): a shallow embedding of the script's functions
over Lean strings and a filesystem tree, with theorems settling the spec's
claims about `slug_from_name`, `title_from_name`, `list_video_files`,
`list_subfolders` and the page renderers.

Modelling conventions:
* Python `str` is modelled as Lean `String` / `List Char`; the character
  classification and case functions (`str.isalnum`, `str.lower`,
  `str.upper`, `str.split`) are modelled by their exact ASCII semantics,
  written out over `Char.toNat`, extended with the non-ASCII code points
  the theorems touch (é U+00E9, İ U+0130, U+0307): there the model also
  agrees with CPython, including İ's two-character lowercase expansion.
  Other non-ASCII points are not modelled faithfully; universal theorems
  about the slug pipeline therefore restrict their input to ASCII, and the
  Unicode counterexamples evaluate it only inside the carried table.
* A directory is a list of `Entry` (file or subdirectory); `none` passed to
  a listing function models a path that does not exist.  The enumeration
  order of a directory's entries is the list order, modelling the unordered
  `Path.iterdir()` stream.
* `os.path` / `pathlib` name splitting (`os.path.splitext`, `Path.suffix`)
  is implemented from CPython's definitions (rfind of `'.'` and `'/'` with
  the leading-dot and position side conditions).
* The `while "--" in base:` loop is modelled with explicit fuel
  (`base.length` steps suffice because each replacement shortens the
  string; proved below as `hasDD_collapseDashes`).
* Writing files is modelled by returning the ordered list of
  (relative output path, page text) pairs that `main` produces; template
  fragments are opaque parameters `tt`/`tb` (read from disk in the script).
-/

/-- Python `str.isalnum` on one character (`ch.isalnum()` at line 32):
exact on all ASCII code points, and on the non-ASCII points the theorems
below evaluate it at — é (U+00E9, alphabetic) and İ (U+0130, alphabetic)
are alphanumeric, U+0307 (combining dot above, a mark) is not.  CPython's
`str.isalnum` is Unicode-aware; code points outside this table are treated
as non-alphanumeric, and every theorem below either restricts its input to
ASCII or evaluates the slug pipeline only inside the table. -/
def pyIsAlnum (c : Char) : Bool :=
  (65 ≤ c.toNat && c.toNat ≤ 90) || (97 ≤ c.toNat && c.toNat ≤ 122) ||
    (48 ≤ c.toNat && c.toNat ≤ 57) || c.toNat = 233 || c.toNat = 304

/-- Python `str.lower` on one character, for the code points whose lowercase
form is again one character: exact on all of ASCII (A–Z map to a–z, the
rest are fixed) and on every carried point without a case mapping (é,
U+0307).  The one carried multi-character expansion, İ, lives in
`pyLowerCharStr`. -/
def pyLowerChar (c : Char) : Char :=
  if 65 ≤ c.toNat ∧ c.toNat ≤ 90 then Char.ofNat (c.toNat + 32) else c

/-- Python `str.lower` of one character as the string it becomes: İ
(U+0130) expands to `"i"` followed by U+0307 — CPython's unconditional
multi-character lowercase expansion — and every other carried code point
lowers within `pyLowerChar`. -/
def pyLowerCharStr (c : Char) : List Char :=
  if c.toNat = 304 then ['i', Char.ofNat 775] else [pyLowerChar c]

/-- Python `str.lower` over a whole string: the concatenation of the
per-character lowercase expansions (`base.lower()` at line 35). -/
def pyLowerStr : List Char → List Char
  | [] => []
  | c :: rest => pyLowerCharStr c ++ pyLowerStr rest

/-- ASCII semantics of Python `str.upper` on one character (used by
`str.capitalize` for the first character). -/
def pyUpperChar (c : Char) : Char :=
  if 97 ≤ c.toNat ∧ c.toNat ≤ 122 then Char.ofNat (c.toNat - 32) else c

/-- The ASCII whitespace that delimits words for Python `str.split()`:
space, tab, newline, carriage return, vertical tab, form feed. -/
def pyIsSpace (c : Char) : Bool :=
  c.toNat = 32 || c.toNat = 9 || c.toNat = 10 || c.toNat = 13 ||
    c.toNat = 11 || c.toNat = 12

/-- `ch.isalnum() or ch in "-_"` — the characters `slug_from_name` keeps. -/
def isSlugKeep (c : Char) : Bool := pyIsAlnum c || c = '-' || c = '_'

/-- Walks the reversed character list; yields the reversed characters before
the last `'.'` of the original string, or `none` when no `'.'` occurs after
the last `'/'`.  Helper for `os.path.splitext`. -/
def dropDotRev : List Char → Option (List Char)
  | [] => none
  | c :: rest => if c = '.' then some rest else if c = '/' then none else dropDotRev rest

/-- The root part of CPython `os.path.splitext(name)` (posix): the extension
is split off at the last `'.'` that lies after the last `'/'` and is
preceded, within that final path component, by some non-dot character
(leading dots of the basename never start an extension). -/
def splitextRoot (s : List Char) : List Char :=
  match dropDotRev s.reverse with
  | none => s
  | some rest => if (rest.takeWhile (fun c => c ≠ '/')).any (fun c => c ≠ '.') then rest.reverse else s

/-- Walks the reversed file name accumulating the characters after the last
`'.'`; helper for `pathlib.PurePath.suffix`. -/
def pySuffixAux (acc : List Char) : List Char → List Char
  | [] => []
  | c :: rest =>
    if c = '.' then (if acc = [] ∨ rest = [] then [] else '.' :: acc)
    else pySuffixAux (c :: acc) rest

/-- `pathlib.PurePath.suffix` of a file name: `name[i:]` for `i` the index of
the last `'.'` when `0 < i < len(name)-1`, else the empty string. -/
def pySuffix (name : List Char) : List Char := pySuffixAux [] name.reverse

/-- One pass of Python `base.replace("--", "-")`: left-to-right,
non-overlapping. -/
def replaceDD : List Char → List Char
  | [] => []
  | [c] => [c]
  | c1 :: c2 :: rest =>
    if c1 = '-' ∧ c2 = '-' then '-' :: replaceDD rest
    else c1 :: replaceDD (c2 :: rest)

/-- `"--" in base`: does the string contain two consecutive hyphens? -/
def hasDD : List Char → Bool
  | [] => false
  | [_] => false
  | c1 :: c2 :: rest => (c1 = '-' && c2 = '-') || hasDD (c2 :: rest)

/-- The `while "--" in base: base = base.replace("--", "-")` loop, run for at
most `fuel` iterations. -/
def collapseFuel : Nat → List Char → List Char
  | 0, s => s
  | Nat.succ k, s => if hasDD s then collapseFuel k (replaceDD s) else s

/-- The collapse loop of `slug_from_name` (lines 33–34): `s.length` steps of
fuel always reach the loop's exit condition, because every iteration that
fires strictly shortens the string (`hasDD_collapseDashes` below). -/
def collapseDashes (s : List Char) : List Char := collapseFuel s.length s

/-- The value `base.lower()` that `slug_from_name` derives before the
`or "page"` fallback (lines 30–35): strip the extension, spaces to hyphens,
non-kept characters to hyphens, collapse `"--"`, lower-case. -/
def slugDerived (name : List Char) : List Char :=
  let base1 := splitextRoot name
  let base2 := base1.map (fun c => if c = ' ' then '-' else c)
  let base3 := base2.map (fun c => if isSlugKeep c then c else '-')
  let base4 := collapseDashes base3
  pyLowerStr base4

/-- `slug_from_name` (lines 29–35) over characters: the derived value, or
the literal `"page"` when it is empty (`base.lower() or "page"`). -/
def slugCh (name : List Char) : List Char :=
  if slugDerived name = [] then "page".data else slugDerived name

/-- `slug_from_name(name)` of `build_site.py` (lines 29–35). -/
def slug_from_name (name : String) : String := ⟨slugCh name.data⟩

/-- Python `str.split()` helper: `acc` holds the current word reversed. -/
def pySplitAux (acc : List Char) : List Char → List (List Char)
  | [] => if acc = [] then [] else [acc.reverse]
  | c :: rest =>
    if pyIsSpace c then
      (if acc = [] then pySplitAux [] rest else acc.reverse :: pySplitAux [] rest)
    else pySplitAux (c :: acc) rest

/-- Python `str.split()` with no separator: split on runs of whitespace,
discarding empty words. -/
def pySplit (s : List Char) : List (List Char) := pySplitAux [] s

/-- Python `str.capitalize()`: first character upper-cased, the rest
lower-cased. -/
def pyCapitalize : List Char → List Char
  | [] => []
  | c :: rest => pyUpperChar c :: rest.map pyLowerChar

/-- `" ".join(words)`. -/
def joinSep : List (List Char) → List Char
  | [] => []
  | [w] => w
  | w :: ws => w ++ ' ' :: joinSep ws

/-- `title_from_name` (lines 38–41) over characters: strip the extension,
underscores and hyphens to spaces, then capitalize each whitespace-separated
word and rejoin with single spaces. -/
def titleCh (name : List Char) : List Char :=
  let base1 := splitextRoot name
  let base2 := base1.map (fun c => if c = '_' then ' ' else c)
  let base3 := base2.map (fun c => if c = '-' then ' ' else c)
  joinSep ((pySplit base3).map pyCapitalize)

/-- `title_from_name(name)` of `build_site.py` (lines 38–41). -/
def title_from_name (name : String) : String := ⟨titleCh name.data⟩

/-- One entry of a directory: a regular file or a subdirectory with its own
entries.  The list order of a directory's children models the enumeration
order of `Path.iterdir()`. -/
inductive Entry : Type
  | file (name : String)
  | dir (name : String) (children : List Entry)

/-- The `name` attribute of a directory entry. -/
def entryName : Entry → String
  | .file n => n
  | .dir n _ => n

/-- `Path.is_dir()` for a directory entry. -/
def entryIsDir : Entry → Bool
  | .file _ => false
  | .dir _ _ => true

/-- The children of an entry (`[]` for a regular file). -/
def childrenOf : Entry → List Entry
  | .file _ => []
  | .dir _ cs => cs

/-- The recognized media extensions `VIDEO_EXTS` (line 22). -/
def VIDEO_EXTS : List String := [".mp4", ".webm", ".mov", ".m4v", ".gif"]

/-- `f.is_file() and f.suffix.lower() in VIDEO_EXTS` (line 50). -/
def isVideoFile : Entry → Bool
  | .file n => VIDEO_EXTS.contains ⟨(pySuffix n.data).map pyLowerChar⟩
  | .dir _ _ => false

/-- Lexicographic comparison of character lists by code point — Python's
`<=` on strings, used through `sorted(..., key=...)`. -/
def lexLe : List Char → List Char → Bool
  | [], _ => true
  | _ :: _, [] => false
  | a :: as, b :: bs =>
    a.toNat < b.toNat || (a = b && lexLe as bs)

/-- The sort key `x.name.lower()` (lines 52 and 61). -/
def lowerKey (e : Entry) : List Char := (entryName e).data.map pyLowerChar

/-- The sort order of both listers: ascending by case-insensitive name. -/
def entryLe (a b : Entry) : Prop := lexLe (lowerKey a) (lowerKey b) = true

/-- The listers' order on file names: `a.lower() <= b.lower()` by code
point. -/
def nameLe (a b : String) : Prop :=
  lexLe (a.data.map pyLowerChar) (b.data.map pyLowerChar) = true

instance : DecidableRel entryLe := fun a b => decEq _ _

instance : IsTotal Entry entryLe := by
  constructor
  intro a b
  suffices h : ∀ x y : List Char, lexLe x y = true ∨ lexLe y x = true from h _ _
  intro x
  induction x with
  | nil => intro y; left; rfl
  | cons a as ih =>
    intro y
    cases y with
    | nil => right; rfl
    | cons b bs =>
      rcases Nat.lt_trichotomy a.toNat b.toNat with h | h | h
      · left; simp [lexLe, h]
      · have hab : a = b := Char.ext (UInt32.ext h)
        subst hab
        rcases ih bs with h' | h'
        · left; simp [lexLe, h']
        · right; simp [lexLe, h']
      · right; simp [lexLe, h]

instance : IsTrans Entry entryLe := by
  constructor
  intro a b c
  suffices h : ∀ x y z : List Char,
      lexLe x y = true → lexLe y z = true → lexLe x z = true from h _ _ _
  intro x
  induction x with
  | nil => intro y z _ _; rfl
  | cons a as ih =>
    intro y z hxy hyz
    cases y with
    | nil => simp [lexLe] at hxy
    | cons b bs =>
      cases z with
      | nil => simp [lexLe] at hyz
      | cons c cs =>
        simp only [lexLe, Bool.or_eq_true, Bool.and_eq_true, decide_eq_true_eq] at hxy hyz ⊢
        rcases hxy with hxy | ⟨hab, hxy⟩
        · rcases hyz with hyz | ⟨hbc, hyz⟩
          · exact Or.inl (Nat.lt_trans hxy hyz)
          · subst hbc; exact Or.inl hxy
        · subst hab
          rcases hyz with hyz | ⟨hbc, hyz⟩
          · exact Or.inl hyz
          · subst hbc; exact Or.inr ⟨rfl, ih _ _ hxy hyz⟩

/-- `list_video_files(folder)` (lines 44–53): `none` models a folder that
does not exist.  Returns the names of the regular files with a recognized
media extension, sorted ascending by case-insensitive name (Python's
`sorted` is stable, as is insertion sort). -/
def list_video_files : Option (List Entry) → List String
  | none => []
  | some es => (List.insertionSort entryLe (es.filter isVideoFile)).map entryName

/-- `list_subfolders(folder)` (lines 56–62): `none` models a folder that
does not exist.  Returns the directory entries sorted ascending by
case-insensitive name. -/
def list_subfolders : Option (List Entry) → List Entry
  | none => []
  | some es => List.insertionSort entryLe (es.filter entryIsDir)

/-- `BASE_URL` (line 13). -/
def BASE_URL : String := "/animations"

/-- `CATEGORIES` (lines 16–20). -/
def CATEGORIES : List (String × String) :=
  [("constitutive-models", "Constitutive Models"),
   ("plaxis", "PLAXIS"),
   ("undergraduate", "Undergraduate")]

/-- `''.join(items)`. -/
def joinAll : List String → String
  | [] => ""
  | s :: rest => s ++ joinAll rest

/-- One `<li>` link of the index page (line 86). -/
def indexLinkItem (slug title : String) : String :=
  "<li><a href=\"" ++ BASE_URL ++ "/" ++ slug ++ ".html\">" ++ title ++ "</a></li>"

/-- The body of the index page (lines 88–95): one link per configured
category whose directory exists under the media root. -/
def make_index_body (cats : List (String × String)) (root : List Entry) : String :=
  let links := (cats.filter (fun p => (root.find? (fun e => entryName e == p.1)).isSome)).map
    (fun p => indexLinkItem p.1 p.2)
  "\n<h1>GeomechMotion — Numerical Modelling Animations</h1>\n<p>Select a category to explore animations:</p>\n\n<ul>\n    "
    ++ joinAll links ++ "\n</ul>\n"

/-- One `<li>` link of a category page to a subfolder page (lines 115–119). -/
def subfolderLinkItem (cat_slug subName : String) : String :=
  "<li><a href=\"" ++ BASE_URL ++ "/" ++ cat_slug ++ "/" ++ slug_from_name subName
    ++ ".html\">" ++ title_from_name subName ++ "</a></li>"

/-- One playable-video block (lines 137–144 and 176–183): a `<section>` with
a `<video>` player at `src` and the caption `"Animation: {title}"`. -/
def videoBlock (src title : String) : String :=
  "\n<section>\n    <video controls>\n        <source src=\"" ++ src
    ++ "\">\n    </video>\n    <p>Animation: " ++ title ++ "</p>\n</section>\n"

/-- The video block of a category page for the media file `vidName`
(lines 133–144): source `{BASE_URL}/assets/videos/{cat_slug}/{vid.name}`. -/
def catVideoBlock (cat_slug vidName : String) : String :=
  videoBlock (BASE_URL ++ "/assets/videos/" ++ cat_slug ++ "/" ++ vidName)
    (title_from_name vidName)

/-- The video block of a subfolder page for the media file `vidName`
(lines 173–183): the source path includes the subfolder segment. -/
def subVideoBlock (cat_slug subName vidName : String) : String :=
  videoBlock (BASE_URL ++ "/assets/videos/" ++ cat_slug ++ "/" ++ subName ++ "/" ++ vidName)
    (title_from_name vidName)

/-- The body of a category page (`make_category_page`, lines 105–156):
if the directory has subfolders, a list of links to the subfolder pages;
else one video block per media file directly in the directory, or the
placeholder when there are none; always a back-link to the index. -/
def make_category_body (cat_slug cat_title : String) (folder : Option (List Entry)) : String :=
  let subfolders := list_subfolders folder
  if subfolders.isEmpty then
    let videos := list_video_files folder
    let blocks := videos.map (fun n => catVideoBlock cat_slug n)
    let blocks := if blocks.isEmpty then ["<p>No videos available yet.</p>"] else blocks
    "\n<h1>" ++ cat_title ++ "</h1>\n" ++ joinAll blocks
      ++ "\n<p><a href=\"" ++ BASE_URL ++ "/index.html\">Back to home</a></p>\n"
  else
    let items := subfolders.map (fun sub => subfolderLinkItem cat_slug (entryName sub))
    "\n<h1>" ++ cat_title ++ "</h1>\n\n<ul>\n    " ++ joinAll items
      ++ "\n</ul>\n\n<p><a href=\"" ++ BASE_URL ++ "/index.html\">Back to home</a></p>\n"

/-- The full text written by `make_category_page` (line 155):
header fragment, body, footer fragment. -/
def make_category_page (tt tb cat_slug cat_title : String)
    (folder : Option (List Entry)) : String :=
  tt ++ make_category_body cat_slug cat_title folder ++ tb

/-- The body of a subfolder page (`make_subcategory_page`, lines 163–198):
the subfolder title and parent category, one video block per media file in
the subfolder (placeholder when none), and back-links to the category page
and the index. -/
def make_subcategory_body (cat_slug cat_title : String) (sub : Entry) : String :=
  let videos := list_video_files (some (childrenOf sub))
  let blocks := videos.map (fun n => subVideoBlock cat_slug (entryName sub) n)
  let blocks := if blocks.isEmpty then ["<p>No videos available.</p>"] else blocks
  "\n<h1>" ++ title_from_name (entryName sub) ++ "</h1>\n<p>Category: " ++ cat_title
    ++ "</p>\n\n" ++ joinAll blocks
    ++ "\n\n<p>\n    <a href=\"" ++ BASE_URL ++ "/" ++ cat_slug ++ ".html\">Back to "
    ++ cat_title ++ "</a> |\n    <a href=\"" ++ BASE_URL ++ "/index.html\">Home</a>\n</p>\n"

/-- The full text written by `make_subcategory_page` (line 201). -/
def make_subcategory_page (tt tb cat_slug cat_title : String) (sub : Entry) : String :=
  tt ++ make_subcategory_body cat_slug cat_title sub ++ tb

/-- The ordered writes of `main` (lines 209–232) as
(relative output path under `docs/`, page text) pairs: the index page, then
for each configured category whose directory entry exists, its category page
followed by one subfolder page per listed subfolder.  `root` is the content
of `assets/videos/`; `tt`/`tb` are the template fragments.  (If a *regular
file* under the media root bears a category's name the script would raise
from `iterdir`; the model treats the category as having no children — no
claim touches that corner.) -/
def sitePages (cats : List (String × String)) (tt tb : String)
    (root : List Entry) : List (String × String) :=
  ("index.html", tt ++ make_index_body cats root ++ tb) ::
    cats.flatMap (fun p =>
      if (root.find? (fun e => entryName e == p.1)).isSome then
        let folder := match root.find? (fun e => entryName e == p.1) with
          | some (.dir _ cs) => some cs
          | _ => none
        (p.1 ++ ".html", make_category_page tt tb p.1 p.2 folder) ::
          (list_subfolders folder).map (fun sub =>
            (p.1 ++ "/" ++ slug_from_name (entryName sub) ++ ".html",
              make_subcategory_page tt tb p.1 p.2 sub))
      else [])

/-- The content a path holds after all writes are applied in order: the last
write to the path wins (`write_html` truncates and rewrites). -/
def lastWrite (ws : List (String × String)) (p : String) : Option String :=
  ((ws.filter (fun w => w.1 == p)).getLast?).map Prod.snd

/-- Is `pat` a prefix of `s`? (decision procedure used by `hasSub`). -/
def isPre : List Char → List Char → Bool
  | [], _ => true
  | _ :: _, [] => false
  | a :: as, b :: bs => a = b && isPre as bs

/-- Does `pat` occur as a contiguous substring of `s`?  (Python `in`.) -/
def hasSub (pat : List Char) : List Char → Bool
  | [] => isPre pat []
  | c :: rest => isPre pat (c :: rest) || hasSub pat rest

/-- No character `a` immediately followed by `b` occurs in the string; with
`a := '<'`, `b := 'v'` this rules out any `<video` tag, with `b := 'l'` any
`<li>` list item. -/
def noPair (a b : Char) : List Char → Bool
  | [] => true
  | [_] => true
  | c1 :: c2 :: rest => !(c1 = a && c2 = b) && noPair a b (c2 :: rest)

/-- Membership in the character class `[a-z0-9-_]` of the slug invariant. -/
def isSlugChar (c : Char) : Bool :=
  (97 ≤ c.toNat && c.toNat ≤ 122) || (48 ≤ c.toNat && c.toNat ≤ 57) ||
    c = '-' || c = '_'

/-- The media tree of the end-to-end test: `assets/videos/plaxis/` holding
one subfolder `Tunnel Excavation/` with one file `stage1.mp4`. -/
def plaxisDemoRoot : List Entry :=
  [Entry.dir "plaxis" [Entry.dir "Tunnel Excavation" [Entry.file "stage1.mp4"]]]

/-- A one-subfolder category directory used to witness the category-page
theorem at a concrete input. -/
def demoCategoryDir : List Entry :=
  [Entry.dir "Tunnel Excavation" [Entry.file "stage1.mp4"]]

/-- A media tree in which two distinct subfolder names share one slug:
`"My Sub"` and `"my-sub"` both slugify to `"my-sub"`. -/
def collisionRoot : List Entry :=
  [Entry.dir "plaxis"
    [Entry.dir "My Sub" [Entry.file "a.mp4"], Entry.dir "my-sub" [Entry.file "b.mp4"]]]

/-! ### Character-level lemmas -/

theorem char_toNat_ofNat {n : Nat} (h : n < 55296) : (Char.ofNat n).toNat = n := by
  have hv : n.isValidChar := Or.inl h
  simp only [Char.ofNat, dif_pos hv]
  simp only [Char.ofNatAux, Char.toNat, UInt32.toNat]
  simp [BitVec.toNat_ofNatLt]

theorem char_eq_of_toNat {a b : Char} (h : a.toNat = b.toNat) : a = b :=
  Char.ext (UInt32.ext h)

theorem char_eq_iff_toNat {a b : Char} : a = b ↔ a.toNat = b.toNat :=
  ⟨fun h => h ▸ rfl, char_eq_of_toNat⟩

theorem toNat_pyLowerChar_of_upper {c : Char} (h : 65 ≤ c.toNat ∧ c.toNat ≤ 90) :
    (pyLowerChar c).toNat = c.toNat + 32 := by
  rw [pyLowerChar, if_pos h]
  exact char_toNat_ofNat (by omega)

theorem pyLowerChar_of_not_upper {c : Char} (h : ¬(65 ≤ c.toNat ∧ c.toNat ≤ 90)) :
    pyLowerChar c = c := by
  rw [pyLowerChar, if_neg h]

theorem isSlugKeep_iff {c : Char} :
    isSlugKeep c = true ↔ (65 ≤ c.toNat ∧ c.toNat ≤ 90) ∨ (97 ≤ c.toNat ∧ c.toNat ≤ 122) ∨
      (48 ≤ c.toNat ∧ c.toNat ≤ 57) ∨ c.toNat = 233 ∨ c.toNat = 304 ∨
      c.toNat = 45 ∨ c.toNat = 95 := by
  have h1 : ('-').toNat = 45 := rfl
  have h2 : ('_').toNat = 95 := rfl
  simp only [isSlugKeep, pyIsAlnum, Bool.or_eq_true, Bool.and_eq_true, decide_eq_true_eq,
    char_eq_iff_toNat, h1, h2]
  tauto

theorem isSlugChar_iff {c : Char} :
    isSlugChar c = true ↔ (97 ≤ c.toNat ∧ c.toNat ≤ 122) ∨ (48 ≤ c.toNat ∧ c.toNat ≤ 57) ∨
      c.toNat = 45 ∨ c.toNat = 95 := by
  have h1 : ('-').toNat = 45 := rfl
  have h2 : ('_').toNat = 95 := rfl
  simp only [isSlugChar, Bool.or_eq_true, Bool.and_eq_true, decide_eq_true_eq,
    char_eq_iff_toNat, h1, h2]
  tauto

theorem isSlugChar_pyLowerChar {c : Char} (h : isSlugKeep c = true)
    (ha : c.toNat < 128) : isSlugChar (pyLowerChar c) = true := by
  rw [isSlugKeep_iff] at h
  by_cases hu : 65 ≤ c.toNat ∧ c.toNat ≤ 90
  · rw [isSlugChar_iff, toNat_pyLowerChar_of_upper hu]
    omega
  · rw [pyLowerChar_of_not_upper hu, isSlugChar_iff]
    omega

theorem isSlugChar_lt_128 {c : Char} (h : isSlugChar c = true) : c.toNat < 128 := by
  rw [isSlugChar_iff] at h
  omega

theorem pyLowerCharStr_of_ne (c : Char) (h : c.toNat ≠ 304) :
    pyLowerCharStr c = [pyLowerChar c] := by
  rw [pyLowerCharStr, if_neg h]

theorem pyLowerStr_eq_map_of_ascii : ∀ {s : List Char}, (∀ c ∈ s, c.toNat < 128) →
    pyLowerStr s = s.map pyLowerChar := by
  intro s
  induction s with
  | nil => intro _; rfl
  | cons c t ih =>
    intro h
    have hc : c.toNat < 128 := h c (by simp)
    simp only [pyLowerStr, List.map_cons]
    rw [pyLowerCharStr_of_ne c (by omega), ih (fun x hx => h x (by simp [hx]))]
    rfl

theorem pyLowerChar_eq_dash {c : Char} (h : pyLowerChar c = '-') : c = '-' := by
  by_cases hu : 65 ≤ c.toNat ∧ c.toNat ≤ 90
  · exfalso
    have hd : ('-').toNat = 45 := rfl
    have := toNat_pyLowerChar_of_upper hu
    rw [h, hd] at this
    omega
  · rwa [pyLowerChar_of_not_upper hu] at h

theorem isSlugChar_not_upper {c : Char} (h : isSlugChar c = true) :
    ¬(65 ≤ c.toNat ∧ c.toNat ≤ 90) := by
  rw [isSlugChar_iff] at h
  omega

theorem isSlugChar_isSlugKeep {c : Char} (h : isSlugChar c = true) : isSlugKeep c = true := by
  rw [isSlugChar_iff] at h
  rw [isSlugKeep_iff]
  omega

theorem isSlugChar_ne_dot {c : Char} (h : isSlugChar c = true) : c ≠ '.' := by
  intro he
  subst he
  exact absurd h (by decide)

theorem isSlugChar_ne_space {c : Char} (h : isSlugChar c = true) : c ≠ ' ' := by
  intro he
  subst he
  exact absurd h (by decide)

theorem pyLowerChar_fix_of_isSlugChar {c : Char} (h : isSlugChar c = true) :
    pyLowerChar c = c :=
  pyLowerChar_of_not_upper (isSlugChar_not_upper h)

theorem map_id_of_mem {f : Char → Char} : ∀ {l : List Char}, (∀ c ∈ l, f c = c) → l.map f = l := by
  intro l h
  induction l with
  | nil => rfl
  | cons c t ih =>
    simp only [List.map_cons]
    rw [h c (by simp), ih (fun x hx => h x (by simp [hx]))]

/-! ### The `"--"` collapse loop -/

theorem replaceDD_length_le : ∀ (n : Nat) (s : List Char), s.length ≤ n →
    (replaceDD s).length ≤ s.length := by
  intro n
  induction n with
  | zero =>
    intro s h
    have : s = [] := List.eq_nil_of_length_eq_zero (Nat.le_zero.mp h)
    subst this
    simp [replaceDD]
  | succ k ih =>
    intro s h
    match s with
    | [] => simp [replaceDD]
    | [c] => simp [replaceDD]
    | c1 :: c2 :: rest =>
      simp only [List.length_cons] at h
      simp only [replaceDD]
      split_ifs with hdd
      · have := ih rest (by omega)
        simp only [List.length_cons]
        omega
      · have := ih (c2 :: rest) (by simp only [List.length_cons]; omega)
        simp only [List.length_cons] at this ⊢
        omega

theorem replaceDD_length_lt : ∀ (n : Nat) (s : List Char), s.length ≤ n → hasDD s = true →
    (replaceDD s).length < s.length := by
  intro n
  induction n with
  | zero =>
    intro s h hd
    have : s = [] := List.eq_nil_of_length_eq_zero (Nat.le_zero.mp h)
    subst this
    simp [hasDD] at hd
  | succ k ih =>
    intro s h hd
    match s with
    | [] => simp [hasDD] at hd
    | [c] => simp [hasDD] at hd
    | c1 :: c2 :: rest =>
      simp only [List.length_cons] at h
      simp only [replaceDD]
      split_ifs with hdd
      · have := replaceDD_length_le k rest (by omega)
        simp only [List.length_cons]
        omega
      · simp only [hasDD, Bool.or_eq_true, Bool.and_eq_true, decide_eq_true_eq] at hd
        rcases hd with hd | hd
        · exact absurd hd hdd
        · have := ih (c2 :: rest) (by simp only [List.length_cons]; omega) hd
          simp only [List.length_cons] at this ⊢
          omega

theorem mem_replaceDD : ∀ (n : Nat) (s : List Char), s.length ≤ n →
    ∀ c ∈ replaceDD s, c ∈ s := by
  intro n
  induction n with
  | zero =>
    intro s h
    have : s = [] := List.eq_nil_of_length_eq_zero (Nat.le_zero.mp h)
    subst this
    simp [replaceDD]
  | succ k ih =>
    intro s h c hc
    match s with
    | [] => simpa [replaceDD] using hc
    | [d] => simpa [replaceDD] using hc
    | c1 :: c2 :: rest =>
      simp only [List.length_cons] at h
      simp only [replaceDD] at hc
      split_ifs at hc with hdd
      · rcases List.mem_cons.mp hc with rfl | hc
        · simp [hdd.1]
        · have := ih rest (by omega) c hc
          simp [this]
      · rcases List.mem_cons.mp hc with rfl | hc
        · simp
        · have := ih (c2 :: rest) (by simp only [List.length_cons]; omega) c hc
          simp only [List.mem_cons] at this ⊢
          tauto

theorem hasDD_collapseFuel : ∀ (n : Nat) (s : List Char), s.length ≤ n →
    hasDD (collapseFuel n s) = false := by
  intro n
  induction n with
  | zero =>
    intro s h
    have : s = [] := List.eq_nil_of_length_eq_zero (Nat.le_zero.mp h)
    subst this
    rfl
  | succ k ih =>
    intro s h
    simp only [collapseFuel]
    split_ifs with hdd
    · have := replaceDD_length_lt (k + 1) s h hdd
      exact ih (replaceDD s) (by omega)
    · simpa using hdd

theorem hasDD_collapseDashes (s : List Char) : hasDD (collapseDashes s) = false :=
  hasDD_collapseFuel s.length s le_rfl

theorem mem_collapseFuel : ∀ (n : Nat) (s : List Char), ∀ c ∈ collapseFuel n s, c ∈ s := by
  intro n
  induction n with
  | zero => intro s c hc; exact hc
  | succ k ih =>
    intro s c hc
    simp only [collapseFuel] at hc
    split_ifs at hc with hdd
    · exact mem_replaceDD s.length s le_rfl c (ih (replaceDD s) c hc)
    · exact hc

theorem mem_collapseDashes {c : Char} {s : List Char} (h : c ∈ collapseDashes s) : c ∈ s :=
  mem_collapseFuel s.length s c h

theorem collapseFuel_of_hasDD_false {s : List Char} (h : hasDD s = false) :
    ∀ n, collapseFuel n s = s := by
  intro n
  cases n <;> simp [collapseFuel, h]

theorem collapseDashes_of_hasDD_false {s : List Char} (h : hasDD s = false) :
    collapseDashes s = s :=
  collapseFuel_of_hasDD_false h s.length

theorem hasDD_of_map_pyLower : ∀ {s : List Char}, hasDD (s.map pyLowerChar) = true →
    hasDD s = true := by
  intro s
  induction s with
  | nil => intro h; simpa [hasDD] using h
  | cons c1 t ih =>
    cases t with
    | nil => intro h; simp [hasDD] at h
    | cons c2 r =>
      intro h
      simp only [List.map_cons, hasDD, Bool.or_eq_true, Bool.and_eq_true,
        decide_eq_true_eq] at h ⊢
      rcases h with ⟨h1, h2⟩ | h
      · exact Or.inl ⟨pyLowerChar_eq_dash h1, pyLowerChar_eq_dash h2⟩
      · exact Or.inr (ih h)

/-! ### The slug invariant -/

theorem mem_dropDotRev : ∀ (l rest : List Char), dropDotRev l = some rest → ∀ c ∈ rest, c ∈ l := by
  intro l
  induction l with
  | nil => intro rest h; simp [dropDotRev] at h
  | cons x t ih =>
    intro rest h c hc
    simp only [dropDotRev] at h
    split_ifs at h with h1 h2
    · rw [Option.some.injEq] at h
      subst h
      exact List.mem_cons_of_mem x hc
    · exact List.mem_cons_of_mem x (ih rest h c hc)

theorem mem_splitextRoot {c : Char} {s : List Char} (h : c ∈ splitextRoot s) : c ∈ s := by
  unfold splitextRoot at h
  split at h
  · exact h
  · next rest heq =>
    split_ifs at h with hcond
    · exact List.mem_reverse.mp (mem_dropDotRev s.reverse rest heq c (List.mem_reverse.mp h))
    · exact h

theorem mem_slugBase_keep_ascii {name : List Char} (h : ∀ c ∈ name, c.toNat < 128) :
    ∀ c ∈ collapseDashes (((splitextRoot name).map (fun c => if c = ' ' then '-' else c)).map
      (fun c => if isSlugKeep c then c else '-')),
      isSlugKeep c = true ∧ c.toNat < 128 := by
  intro c hc
  have hc' := mem_collapseDashes hc
  rcases List.mem_map.mp hc' with ⟨c1, hc1, rfl⟩
  rcases List.mem_map.mp hc1 with ⟨c2, hc2, rfl⟩
  have hc2a : c2.toNat < 128 := h c2 (mem_splitextRoot hc2)
  have hc1a : (if c2 = ' ' then '-' else c2).toNat < 128 := by
    split_ifs
    · decide
    · exact hc2a
  by_cases hk : isSlugKeep (if c2 = ' ' then '-' else c2) = true
  · rw [if_pos hk]
    exact ⟨hk, hc1a⟩
  · rw [if_neg hk]
    exact ⟨by decide, by decide⟩

theorem mem_slugDerived_isSlugChar_ascii {name : List Char}
    (h : ∀ c ∈ name, c.toNat < 128) : ∀ c ∈ slugDerived name, isSlugChar c = true := by
  intro c hc
  simp only [slugDerived] at hc
  rw [pyLowerStr_eq_map_of_ascii (fun x hx => (mem_slugBase_keep_ascii h x hx).2)] at hc
  rcases List.mem_map.mp hc with ⟨c', hc', rfl⟩
  exact isSlugChar_pyLowerChar (mem_slugBase_keep_ascii h c' hc').1
    (mem_slugBase_keep_ascii h c' hc').2

theorem hasDD_map_pyLower_eq_false {s : List Char} (h : hasDD s = false) :
    hasDD (s.map pyLowerChar) = false := by
  cases hx : hasDD (s.map pyLowerChar)
  · rfl
  · rw [hasDD_of_map_pyLower hx] at h
    exact absurd h (by simp)

theorem hasDD_slugDerived_ascii {name : List Char} (h : ∀ c ∈ name, c.toNat < 128) :
    hasDD (slugDerived name) = false := by
  simp only [slugDerived]
  rw [pyLowerStr_eq_map_of_ascii (fun x hx => (mem_slugBase_keep_ascii h x hx).2)]
  exact hasDD_map_pyLower_eq_false (hasDD_collapseDashes _)

theorem slugCh_ne_nil (name : List Char) : slugCh name ≠ [] := by
  unfold slugCh
  split_ifs with h
  · decide
  · exact h

theorem mem_slugCh_isSlugChar_ascii (name : List Char) (ha : ∀ c ∈ name, c.toNat < 128) :
    ∀ c ∈ slugCh name, isSlugChar c = true := by
  unfold slugCh
  split_ifs with h
  · decide
  · exact mem_slugDerived_isSlugChar_ascii ha

theorem hasDD_slugCh_ascii (name : List Char) (ha : ∀ c ∈ name, c.toNat < 128) :
    hasDD (slugCh name) = false := by
  unfold slugCh
  split_ifs with h
  · decide
  · exact hasDD_slugDerived_ascii ha

theorem dropDotRev_eq_none (l : List Char) (h : ∀ c ∈ l, c ≠ '.') : dropDotRev l = none := by
  induction l with
  | nil => rfl
  | cons c t ih =>
    simp only [dropDotRev]
    rw [if_neg (h c (by simp))]
    by_cases hs : c = '/'
    · rw [if_pos hs]
    · rw [if_neg hs]
      exact ih (fun x hx => h x (by simp [hx]))

theorem splitextRoot_eq_self_of_no_dot (s : List Char) (h : ∀ c ∈ s, c ≠ '.') :
    splitextRoot s = s := by
  unfold splitextRoot
  rw [dropDotRev_eq_none s.reverse (fun c hc => h c (List.mem_reverse.mp hc))]

/-- C1 (counterexample): the universal character-class claim is false of
the code on non-ASCII input — Python's `str.isalnum` keeps Unicode
alphanumerics, so `slug("é.mp4") = "é"`, and é lies outside `[a-z0-9-_]`. -/
theorem slug_charclass_claim_false :
    slug_from_name "é.mp4" = "é" ∧ 'é' ∈ (slug_from_name "é.mp4").data ∧
    isSlugChar 'é' = false := by
  decide

/-- C1 (amended): for every input name of ASCII characters,
`slug_from_name n` is lowercase (fixed by `str.lower`), contains no
character outside `[a-z0-9-_]`, contains no two consecutive hyphens, and is
non-empty, being the literal `"page"` exactly when the derived value
`base.lower()` would otherwise be empty. -/
theorem slug_from_name_invariant_ascii (n : String) (ha : ∀ c ∈ n.data, c.toNat < 128) :
    slug_from_name n ≠ "" ∧
    (∀ c ∈ (slug_from_name n).data, isSlugChar c = true) ∧
    pyLowerStr (slug_from_name n).data = (slug_from_name n).data ∧
    hasDD (slug_from_name n).data = false ∧
    (slugDerived n.data = [] → slug_from_name n = "page") := by
  refine ⟨?_, ?_, ?_, ?_, ?_⟩
  · intro h
    exact slugCh_ne_nil n.data (congrArg String.data h)
  · exact mem_slugCh_isSlugChar_ascii n.data ha
  · show pyLowerStr (slugCh n.data) = slugCh n.data
    rw [pyLowerStr_eq_map_of_ascii (fun c hc =>
      isSlugChar_lt_128 (mem_slugCh_isSlugChar_ascii n.data ha c hc))]
    exact map_id_of_mem (fun c hc =>
      pyLowerChar_fix_of_isSlugChar (mem_slugCh_isSlugChar_ascii n.data ha c hc))
  · exact hasDD_slugCh_ascii n.data ha
  · intro h
    show (⟨slugCh n.data⟩ : String) = "page"
    unfold slugCh
    rw [if_pos h]

/-- C1 witness: the amended invariant at a concrete ASCII input. -/
theorem slug_from_name_invariant_ascii_witness :
    slug_from_name "My Model (v2).mp4" ≠ "" ∧
    (∀ c ∈ (slug_from_name "My Model (v2).mp4").data, isSlugChar c = true) ∧
    pyLowerStr (slug_from_name "My Model (v2).mp4").data =
      (slug_from_name "My Model (v2).mp4").data ∧
    hasDD (slug_from_name "My Model (v2).mp4").data = false ∧
    (slugDerived "My Model (v2).mp4".data = [] →
      slug_from_name "My Model (v2).mp4" = "page") :=
  slug_from_name_invariant_ascii "My Model (v2).mp4" (by decide)

/-- C2 (counterexample): the claim `slug("My Model (v2).mp4") = "my-model-v2"`
is false of the code — the closing parenthesis becomes a hyphen that nothing
removes, so the slug ends in a hyphen. -/
theorem slug_example_claim_false : slug_from_name "My Model (v2).mp4" ≠ "my-model-v2" := by
  decide

/-- C2 (amended): `slug_from_name "My Model (v2).mp4"` returns
`"my-model-v2-"`, with a trailing hyphen (space and each of `(`, `)` become
hyphens; `"--"` collapses; the final hyphen from `)` remains). -/
theorem slug_example_value : slug_from_name "My Model (v2).mp4" = "my-model-v2-" := by
  decide

theorem slugCh_fix_of_invariant (r : List Char) (hchars : ∀ c ∈ r, isSlugChar c = true)
    (hdd : hasDD r = false) (hne : r ≠ []) : slugCh r = r := by
  have h1 : splitextRoot r = r :=
    splitextRoot_eq_self_of_no_dot _ (fun c hc => isSlugChar_ne_dot (hchars c hc))
  have h2 : r.map (fun c => if c = ' ' then '-' else c) = r :=
    map_id_of_mem (fun c hc => by rw [if_neg (isSlugChar_ne_space (hchars c hc))])
  have h3 : r.map (fun c => if isSlugKeep c then c else '-') = r :=
    map_id_of_mem (fun c hc => by rw [if_pos (isSlugChar_isSlugKeep (hchars c hc))])
  have h4 : collapseDashes r = r := collapseDashes_of_hasDD_false hdd
  have h5 : pyLowerStr r = r := by
    rw [pyLowerStr_eq_map_of_ascii (fun c hc => isSlugChar_lt_128 (hchars c hc))]
    exact map_id_of_mem (fun c hc => pyLowerChar_fix_of_isSlugChar (hchars c hc))
  have hder : slugDerived r = r := by
    simp only [slugDerived]
    rw [h1, h2, h3, h4, h5]
  unfold slugCh
  rw [hder, if_neg hne]

/-- C6 (counterexample): idempotence is false of the code on non-ASCII
input — CPython lowercases İ (U+0130) to `"i"` followed by U+0307, and
re-slugging maps the combining mark (not alphanumeric) to a hyphen:
`slug(slug("İ")) = "i-" ≠ slug("İ")`. -/
theorem slug_idempotent_claim_false :
    slug_from_name (slug_from_name "İ") = "i-" ∧
    slug_from_name (slug_from_name "İ") ≠ slug_from_name "İ" := by
  decide

/-- C6 (amended): `slug_from_name` is idempotent on every ASCII input —
the slug of an ASCII name satisfies the slug invariant, and every stage of
the pipeline fixes strings satisfying it. -/
theorem slug_from_name_idempotent_ascii (n : String)
    (ha : ∀ c ∈ n.data, c.toNat < 128) :
    slug_from_name (slug_from_name n) = slug_from_name n := by
  show (⟨slugCh (slugCh n.data)⟩ : String) = ⟨slugCh n.data⟩
  rw [slugCh_fix_of_invariant (slugCh n.data) (mem_slugCh_isSlugChar_ascii n.data ha)
    (hasDD_slugCh_ascii n.data ha) (slugCh_ne_nil n.data)]

/-- C6 witness: amended idempotence at a concrete ASCII input. -/
theorem slug_from_name_idempotent_ascii_witness :
    slug_from_name (slug_from_name "Tunnel Excavation") = slug_from_name "Tunnel Excavation" :=
  slug_from_name_idempotent_ascii "Tunnel Excavation" (by decide)

/-- C7: on a path that does not exist (modelled by `none`) both listers
return the empty sequence; being total Lean functions, they raise nothing. -/
theorem listers_on_missing_path :
    list_video_files none = [] ∧ list_subfolders none = [] :=
  ⟨rfl, rfl⟩

/-! ### The listers: filtering, ordering, determinism -/

theorem lexLe_antisymm : ∀ {x y : List Char}, lexLe x y = true → lexLe y x = true → x = y := by
  intro x
  induction x with
  | nil =>
    intro y h1 h2
    cases y with
    | nil => rfl
    | cons b bs => simp [lexLe] at h2
  | cons a as ih =>
    intro y h1 h2
    cases y with
    | nil => simp [lexLe] at h1
    | cons b bs =>
      simp only [lexLe, Bool.or_eq_true, Bool.and_eq_true, decide_eq_true_eq] at h1 h2
      rcases h1 with h1 | ⟨rfl, h1⟩
      · rcases h2 with h2 | ⟨rfl, h2⟩
        · exfalso
          omega
        · exfalso
          omega
      · rcases h2 with h2 | ⟨he, h2⟩
        · exfalso
          omega
        · rw [ih h1 h2]

theorem eq_of_perm_sorted_nodup : ∀ (l1 l2 : List Entry), l1.Perm l2 →
    List.Sorted entryLe l1 → List.Sorted entryLe l2 → (l1.map lowerKey).Nodup → l1 = l2 := by
  intro l1
  induction l1 with
  | nil =>
    intro l2 hp _ _ _
    exact (List.Perm.eq_nil hp.symm).symm
  | cons h1 t1 ih =>
    intro l2 hp hs1 hs2 hnd
    cases l2 with
    | nil => exact absurd (List.Perm.eq_nil hp) (by simp)
    | cons h2 t2 =>
      have hm1 : h1 ∈ h2 :: t2 := hp.subset (by simp)
      have hm2 : h2 ∈ h1 :: t1 := hp.symm.subset (by simp)
      have hh : h1 = h2 := by
        rcases List.mem_cons.mp hm1 with h | hmem1
        · exact h
        rcases List.mem_cons.mp hm2 with h | hmem2
        · exact h.symm
        have hr1 : entryLe h1 h2 := (List.sorted_cons.mp hs1).1 h2 hmem2
        have hr2 : entryLe h2 h1 := (List.sorted_cons.mp hs2).1 h1 hmem1
        have hk : lowerKey h1 = lowerKey h2 := lexLe_antisymm hr1 hr2
        exfalso
        have hmem : lowerKey h2 ∈ t1.map lowerKey := List.mem_map_of_mem lowerKey hmem2
        rw [← hk] at hmem
        exact (List.nodup_cons.mp hnd).1 hmem
      subst hh
      have ht := ih t2 hp.cons_inv (List.sorted_cons.mp hs1).2 (List.sorted_cons.mp hs2).2
        (List.nodup_cons.mp hnd).2
      rw [ht]

/-- C5: `list_video_files` on an existing folder returns exactly the names
of the regular files whose extension is in the recognized media set
(case-insensitively) — a permutation of the filtered entries, sorted
ascending by case-insensitive name — and on the folder
`{B.mp4, a.MP4, c.txt}` it returns `[a.MP4, B.mp4]`. -/
theorem list_video_files_spec (es : List Entry) :
    (list_video_files (some es)).Perm ((es.filter isVideoFile).map entryName) ∧
    List.Sorted nameLe (list_video_files (some es)) ∧
    (∀ nm : String, nm ∈ list_video_files (some es) ↔
      ∃ e ∈ es, isVideoFile e = true ∧ entryName e = nm) ∧
    list_video_files (some [Entry.file "B.mp4", Entry.file "a.MP4", Entry.file "c.txt"]) =
      ["a.MP4", "B.mp4"] := by
  have hperm : (List.insertionSort entryLe (es.filter isVideoFile)).Perm
      (es.filter isVideoFile) := List.perm_insertionSort entryLe _
  refine ⟨hperm.map entryName, ?_, ?_, by decide⟩
  · have hs := List.sorted_insertionSort entryLe (es.filter isVideoFile)
    simp only [list_video_files, List.Sorted] at hs ⊢
    rw [List.pairwise_map]
    exact hs
  · intro nm
    constructor
    · intro h
      rcases List.mem_map.mp (((hperm.map entryName).mem_iff).mp h) with ⟨e, he, rfl⟩
      rcases List.mem_filter.mp he with ⟨he1, he2⟩
      exact ⟨e, he1, he2, rfl⟩
    · rintro ⟨e, he, hv, rfl⟩
      exact ((hperm.map entryName).mem_iff).mpr
        (List.mem_map_of_mem entryName (List.mem_filter.mpr ⟨he, hv⟩))

/-- C9: the pipeline is a pure function of the configuration, template
fragments and filesystem state, so a second run over unchanged input
produces byte-identical pages; moreover the output of each lister does not
even depend on the enumeration order the OS happens to return, provided the
case-folded sibling names are distinct — the ordering the spec calls
load-bearing. -/
theorem pipeline_deterministic (cats : List (String × String)) (tt tb : String)
    (root : List Entry) (es es' : List Entry) (hp : es.Perm es')
    (hnd : (es.map lowerKey).Nodup) :
    sitePages cats tt tb root = sitePages cats tt tb root ∧
    list_video_files (some es) = list_video_files (some es') ∧
    list_subfolders (some es) = list_subfolders (some es') := by
  have key : ∀ p : Entry → Bool,
      List.insertionSort entryLe (es.filter p) = List.insertionSort entryLe (es'.filter p) := by
    intro p
    have hfp : (es.filter p).Perm (es'.filter p) := hp.filter p
    have hsp : (List.insertionSort entryLe (es.filter p)).Perm
        (List.insertionSort entryLe (es'.filter p)) :=
      (List.perm_insertionSort _ _).trans (hfp.trans (List.perm_insertionSort _ _).symm)
    have hnd0 : ((es.filter p).map lowerKey).Nodup :=
      ((List.filter_sublist es).map lowerKey).nodup hnd
    have hnd1 : ((List.insertionSort entryLe (es.filter p)).map lowerKey).Nodup :=
      (((List.perm_insertionSort entryLe (es.filter p)).map lowerKey).symm).nodup hnd0
    exact eq_of_perm_sorted_nodup _ _ hsp (List.sorted_insertionSort _ _)
      (List.sorted_insertionSort _ _) hnd1
  refine ⟨rfl, ?_, ?_⟩
  · simp only [list_video_files]
    rw [key isVideoFile]
  · simp only [list_subfolders]
    rw [key entryIsDir]

/-- C9 witness: a concrete instance — two enumeration orders of one folder
with case-insensitively distinct names give identical lister output. -/
theorem pipeline_deterministic_witness :
    sitePages [("plaxis", "PLAXIS")] "" "" [] = sitePages [("plaxis", "PLAXIS")] "" "" [] ∧
    list_video_files (some [Entry.file "b.mp4", Entry.file "a.mp4"]) =
      list_video_files (some [Entry.file "a.mp4", Entry.file "b.mp4"]) ∧
    list_subfolders (some [Entry.file "b.mp4", Entry.file "a.mp4"]) =
      list_subfolders (some [Entry.file "a.mp4", Entry.file "b.mp4"]) :=
  pipeline_deterministic [("plaxis", "PLAXIS")] "" "" []
    [Entry.file "b.mp4", Entry.file "a.mp4"] [Entry.file "a.mp4", Entry.file "b.mp4"]
    (List.Perm.swap (Entry.file "a.mp4") (Entry.file "b.mp4") []) (by decide)

/-! ### Totality and extension handling of the derivers -/

theorem dropDotRev_append (l rest : List Char) (h : ∀ c ∈ l, c ≠ '.' ∧ c ≠ '/') :
    dropDotRev (l ++ '.' :: rest) = some rest := by
  induction l with
  | nil => simp [dropDotRev]
  | cons c t ih =>
    simp only [List.cons_append, dropDotRev]
    rw [if_neg (h c (by simp)).1, if_neg (h c (by simp)).2]
    exact ih (fun x hx => h x (by simp [hx]))

theorem takeWhile_no_slash (l : List Char) (h : ∀ c ∈ l, c ≠ '/') :
    l.takeWhile (fun c => c ≠ '/') = l := by
  induction l with
  | nil => rfl
  | cons c t ih =>
    simp only [List.takeWhile_cons]
    rw [if_pos (by simp [h c (by simp)])]
    rw [ih (fun x hx => h x (by simp [hx]))]

theorem splitextRoot_append_ext (a b : List Char) (hb : ∀ c ∈ b, c ≠ '.' ∧ c ≠ '/')
    (ha1 : ∀ c ∈ a, c ≠ '/') (ha2 : ∃ c ∈ a, c ≠ '.') :
    splitextRoot (a ++ '.' :: b) = a := by
  have hrev : (a ++ '.' :: b).reverse = b.reverse ++ '.' :: a.reverse := by
    simp [List.reverse_append]
  have hd : dropDotRev (a ++ '.' :: b).reverse = some a.reverse := by
    rw [hrev]
    exact dropDotRev_append b.reverse a.reverse (fun c hc => hb c (List.mem_reverse.mp hc))
  unfold splitextRoot
  rw [hd]
  show (if ((a.reverse.takeWhile (fun c => c ≠ '/')).any (fun c => c ≠ '.')) then
      a.reverse.reverse else a ++ '.' :: b) = a
  rw [takeWhile_no_slash a.reverse (fun c hc => ha1 c (List.mem_reverse.mp hc))]
  obtain ⟨c, hc, hcd⟩ := ha2
  rw [if_pos (List.any_eq_true.mpr ⟨c, List.mem_reverse.mpr hc, by simp [hcd]⟩)]
  exact List.reverse_reverse a

/-- C8: `slug_from_name` and `title_from_name` are total pure functions over
any input string: `slug` is never empty and falls back to `"page"` on empty
input, `title` of empty input is the empty string, symbol-only input yields
a defined value for both, names with several dots have only the last
extension stripped, and the result never depends on the content of the
stripped extension. -/
theorem slug_title_total_graceful :
    (∀ s : String, slug_from_name s ≠ "") ∧
    slug_from_name "" = "page" ∧ title_from_name "" = "" ∧
    slug_from_name "!!!" = "-" ∧ title_from_name "!!!" = "!!!" ∧
    slug_from_name "a.b.c" = "a-b" ∧ title_from_name "a.b.c" = "A.b" ∧
    slug_from_name "noext" = "noext" ∧ title_from_name "some_name" = "Some Name" ∧
    (∀ a b1 b2 : List Char, (∀ c ∈ b1, c ≠ '.' ∧ c ≠ '/') → (∀ c ∈ b2, c ≠ '.' ∧ c ≠ '/') →
      (∀ c ∈ a, c ≠ '/') → (∃ c ∈ a, c ≠ '.') →
      slugCh (a ++ '.' :: b1) = slugCh (a ++ '.' :: b2) ∧
      titleCh (a ++ '.' :: b1) = titleCh (a ++ '.' :: b2)) := by
  refine ⟨?_, by decide, by decide, by decide, by decide, by decide, by decide, by decide,
    by decide, ?_⟩
  · intro s h
    exact slugCh_ne_nil s.data (congrArg String.data h)
  · intro a b1 b2 hb1 hb2 ha1 ha2
    constructor
    · unfold slugCh slugDerived
      rw [splitextRoot_append_ext a b1 hb1 ha1 ha2, splitextRoot_append_ext a b2 hb2 ha1 ha2]
    · unfold titleCh
      rw [splitextRoot_append_ext a b1 hb1 ha1 ha2, splitextRoot_append_ext a b2 hb2 ha1 ha2]

/-! ### End-to-end generation -/

set_option maxRecDepth 10000

/-- C4: on categories `[("plaxis", "PLAXIS")]` over a media root holding
only `plaxis/Tunnel Excavation/stage1.mp4`, the generator writes exactly the
index page, `plaxis.html` — whose body links to
`plaxis/tunnel-excavation.html` labeled `Tunnel Excavation` — and
`plaxis/tunnel-excavation.html` — whose body holds a video block with source
`/animations/assets/videos/plaxis/Tunnel Excavation/stage1.mp4` and caption
`Animation: Stage1`. -/
theorem generator_end_to_end (tt tb : String) :
    sitePages [("plaxis", "PLAXIS")] tt tb plaxisDemoRoot =
      [("index.html", tt ++ make_index_body [("plaxis", "PLAXIS")] plaxisDemoRoot ++ tb),
       ("plaxis.html", tt ++ make_category_body "plaxis" "PLAXIS"
          (some [Entry.dir "Tunnel Excavation" [Entry.file "stage1.mp4"]]) ++ tb),
       ("plaxis/tunnel-excavation.html", tt ++ make_subcategory_body "plaxis" "PLAXIS"
          (Entry.dir "Tunnel Excavation" [Entry.file "stage1.mp4"]) ++ tb)] ∧
    hasSub "<a href=\"/animations/plaxis/tunnel-excavation.html\">Tunnel Excavation</a>".data
      (make_category_body "plaxis" "PLAXIS"
        (some [Entry.dir "Tunnel Excavation" [Entry.file "stage1.mp4"]])).data = true ∧
    hasSub "<source src=\"/animations/assets/videos/plaxis/Tunnel Excavation/stage1.mp4\">".data
      (make_subcategory_body "plaxis" "PLAXIS"
        (Entry.dir "Tunnel Excavation" [Entry.file "stage1.mp4"])).data = true ∧
    hasSub "<p>Animation: Stage1</p>".data
      (make_subcategory_body "plaxis" "PLAXIS"
        (Entry.dir "Tunnel Excavation" [Entry.file "stage1.mp4"])).data = true :=
  ⟨rfl, by decide, by decide, by decide⟩

/-- C10: `slug_from_name` is not injective — the distinct directory names
`"My Sub"` and `"my-sub"` share the slug `"my-sub"`, so in `collisionRoot`
both subfolder pages get output path `plaxis/my-sub.html` and the
later-rendered page (the `"my-sub"` one: it sorts after `"My Sub"`) silently
overwrites the earlier. -/
theorem slug_collision_overwrite (tt tb : String) :
    slug_from_name "My Sub" = slug_from_name "my-sub" ∧
    "My Sub" ≠ "my-sub" ∧
    (sitePages [("plaxis", "PLAXIS")] tt tb collisionRoot).map Prod.fst =
      ["index.html", "plaxis.html", "plaxis/my-sub.html", "plaxis/my-sub.html"] ∧
    lastWrite (sitePages [("plaxis", "PLAXIS")] tt tb collisionRoot) "plaxis/my-sub.html" =
      some (make_subcategory_page tt tb "plaxis" "PLAXIS"
        (Entry.dir "my-sub" [Entry.file "b.mp4"])) ∧
    make_subcategory_page tt tb "plaxis" "PLAXIS" (Entry.dir "my-sub" [Entry.file "b.mp4"]) ≠
      make_subcategory_page tt tb "plaxis" "PLAXIS" (Entry.dir "My Sub" [Entry.file "a.mp4"]) := by
  refine ⟨by decide, by decide, rfl, rfl, ?_⟩
  intro h
  have hd := congrArg String.data h
  simp only [make_subcategory_page, String.data_append] at hd
  have h1 := List.append_cancel_right hd
  have h2 := List.append_cancel_left h1
  have h3 : make_subcategory_body "plaxis" "PLAXIS" (Entry.dir "my-sub" [Entry.file "b.mp4"]) =
      make_subcategory_body "plaxis" "PLAXIS" (Entry.dir "My Sub" [Entry.file "a.mp4"]) := by
    cases hb1 : make_subcategory_body "plaxis" "PLAXIS" (Entry.dir "my-sub" [Entry.file "b.mp4"])
    cases hb2 : make_subcategory_body "plaxis" "PLAXIS" (Entry.dir "My Sub" [Entry.file "a.mp4"])
    rw [hb1, hb2] at h2
    exact congrArg String.mk h2
  exact absurd h3 (by decide)

/-! ### Substring and pair-absence machinery for the page bodies -/

theorem isPre_refl : ∀ (l : List Char), isPre l l = true := by
  intro l
  induction l with
  | nil => rfl
  | cons c t ih => simp [isPre, ih]

theorem isPre_append : ∀ (pat u v : List Char), isPre pat u = true → isPre pat (u ++ v) = true := by
  intro pat
  induction pat with
  | nil => intro u v _; rfl
  | cons p ps ih =>
    intro u v h
    cases u with
    | nil => simp [isPre] at h
    | cons c t =>
      simp only [List.cons_append, isPre, Bool.and_eq_true, decide_eq_true_eq] at h ⊢
      exact ⟨h.1, ih t v h.2⟩

theorem hasSub_nil_pat : ∀ (v : List Char), hasSub [] v = true := by
  intro v
  cases v with
  | nil => rfl
  | cons c t => simp [hasSub, isPre]

theorem hasSub_self (l : List Char) : hasSub l l = true := by
  cases l with
  | nil => rfl
  | cons c t => simp [hasSub, isPre_refl]

theorem hasSub_append_left : ∀ (pat u v : List Char), hasSub pat u = true →
    hasSub pat (u ++ v) = true := by
  intro pat u v
  induction u with
  | nil =>
    intro h
    cases pat with
    | nil => exact hasSub_nil_pat v
    | cons p ps => simp [hasSub, isPre] at h
  | cons c t ih =>
    intro h
    rw [List.cons_append]
    simp only [hasSub, Bool.or_eq_true] at h ⊢
    rcases h with h | h
    · refine Or.inl ?_
      rw [← List.cons_append]
      exact isPre_append pat (c :: t) v h
    · exact Or.inr (ih h)

theorem hasSub_append_right : ∀ (pat u v : List Char), hasSub pat v = true →
    hasSub pat (u ++ v) = true := by
  intro pat u v h
  induction u with
  | nil => exact h
  | cons c t ih =>
    rw [List.cons_append]
    simp only [hasSub, Bool.or_eq_true]
    exact Or.inr ih

theorem noPair_tail {a b c : Char} {t : List Char} (h : noPair a b (c :: t) = true) :
    noPair a b t = true := by
  cases t with
  | nil => rfl
  | cons d r =>
    simp only [noPair, Bool.and_eq_true] at h
    exact h.2

theorem hasSub_eq_false_of_noPair {a b : Char} {p : List Char} :
    ∀ {s : List Char}, noPair a b s = true → hasSub (a :: b :: p) s = false := by
  intro s
  induction s with
  | nil => intro _; rfl
  | cons c t ih =>
    intro h
    have h2 := ih (noPair_tail h)
    have h1 : isPre (a :: b :: p) (c :: t) = false := by
      by_cases hca : c = a
      · subst hca
        cases t with
        | nil => simp [isPre]
        | cons d r =>
          simp only [noPair, Bool.and_eq_true, Bool.not_eq_true', Bool.and_eq_false_iff,
            decide_eq_false_iff_not, decide_eq_true_eq] at h
          have hdb : d ≠ b := by
            rcases h.1 with h' | h'
            · exact absurd trivial h'
            · exact h'
          simp [isPre, Ne.symm hdb]
      · simp [isPre, Ne.symm hca]
    simp [hasSub, h1, h2]

theorem noPair_of_not_mem {a b : Char} : ∀ {l : List Char}, a ∉ l → noPair a b l = true := by
  intro l
  induction l with
  | nil => intro _; rfl
  | cons c t ih =>
    intro h
    cases t with
    | nil => rfl
    | cons d r =>
      simp only [noPair, Bool.and_eq_true, Bool.not_eq_true', Bool.and_eq_false_iff,
        decide_eq_false_iff_not]
      constructor
      · exact Or.inl (fun hc => h (by simp [hc]))
      · exact ih (fun hm => h (by simp [hm]))

theorem getLastQ_mem : ∀ {l : List Char} {x : Char}, l.getLast? = some x → x ∈ l := by
  intro l
  induction l with
  | nil => intro x h; simp at h
  | cons c t ih =>
    intro x h
    cases t with
    | nil =>
      simp only [List.getLast?_singleton, Option.some.injEq] at h
      simp [h]
    | cons d r =>
      rw [List.getLast?_cons_cons] at h
      simp [ih h]

theorem getLastQ_ne_of_not_mem {a : Char} {l : List Char} (h : a ∉ l) :
    l.getLast? ≠ some a :=
  fun he => h (getLastQ_mem he)

theorem noPair_append {a b : Char} : ∀ (u v : List Char), noPair a b u = true →
    noPair a b v = true → u.getLast? ≠ some a → noPair a b (u ++ v) = true := by
  intro u
  induction u with
  | nil => intro v _ hv _; exact hv
  | cons c t ih =>
    intro v hu hv hlast
    cases t with
    | nil =>
      have hca : c ≠ a := by
        intro hc
        exact hlast (by simp [hc])
      rw [List.singleton_append]
      cases v with
      | nil => rfl
      | cons y r =>
        simp only [noPair, Bool.and_eq_true, Bool.not_eq_true', Bool.and_eq_false_iff,
          decide_eq_false_iff_not]
        exact ⟨Or.inl hca, hv⟩
    | cons d r =>
      have hstep : ((c :: d :: r) ++ v) = c :: ((d :: r) ++ v) := rfl
      rw [hstep]
      have htail : noPair a b ((d :: r) ++ v) = true := by
        refine ih v (noPair_tail hu) hv ?_
        rw [List.getLast?_cons_cons] at hlast
        exact hlast
      have hhead : (!(c = a && d = b)) = true := by
        simp only [noPair, Bool.and_eq_true] at hu
        exact hu.1
      have hcons : ((d :: r) ++ v) = d :: (r ++ v) := rfl
      rw [hcons] at htail
      simp only [noPair, Bool.and_eq_true]
      exact ⟨hhead, htail⟩

theorem getLastQ_append_ne {a : Char} {u v : List Char} (hu : u.getLast? ≠ some a)
    (hv : v.getLast? ≠ some a) : (u ++ v).getLast? ≠ some a := by
  rw [List.getLast?_append]
  cases hvv : v.getLast? with
  | none => simpa [Option.or] using hu
  | some y =>
    rw [hvv] at hv
    simpa [Option.or] using hv

theorem noPair_append_good {a b : Char} {u v : List Char}
    (hu1 : noPair a b u = true) (hu2 : u.getLast? ≠ some a)
    (hv : noPair a b v = true ∧ v.getLast? ≠ some a) :
    noPair a b (u ++ v) = true ∧ (u ++ v).getLast? ≠ some a :=
  ⟨noPair_append u v hu1 hv.1 hu2, getLastQ_append_ne hu2 hv.2⟩

theorem good_of_not_mem {a b : Char} {l : List Char} (h : a ∉ l) :
    noPair a b l = true ∧ l.getLast? ≠ some a :=
  ⟨noPair_of_not_mem h, getLastQ_ne_of_not_mem h⟩

theorem pyUpperChar_target_lt {x : Char} (h : pyUpperChar x = '<') : x = '<' := by
  unfold pyUpperChar at h
  split_ifs at h with hc
  · exfalso
    have h60 : ('<').toNat = 60 := rfl
    have hn := congrArg Char.toNat h
    rw [char_toNat_ofNat (by omega), h60] at hn
    omega
  · exact h

theorem pyLowerChar_target_lt {x : Char} (h : pyLowerChar x = '<') : x = '<' := by
  unfold pyLowerChar at h
  split_ifs at h with hc
  · exfalso
    have h60 : ('<').toNat = 60 := rfl
    have hn := congrArg Char.toNat h
    rw [char_toNat_ofNat (by omega), h60] at hn
    omega
  · exact h

theorem mem_pySplitAux : ∀ (s acc : List Char) (w : List Char), w ∈ pySplitAux acc s →
    ∀ c ∈ w, c ∈ acc ∨ c ∈ s := by
  intro s
  induction s with
  | nil =>
    intro acc w hw c hc
    simp only [pySplitAux] at hw
    split_ifs at hw with h
    · simp at hw
    · simp only [List.mem_singleton] at hw
      subst hw
      exact Or.inl (List.mem_reverse.mp hc)
  | cons x t ih =>
    intro acc w hw c hc
    simp only [pySplitAux] at hw
    split_ifs at hw with h1 h2
    · rcases ih [] w hw c hc with h | h
      · simp at h
      · exact Or.inr (by simp [h])
    · rcases List.mem_cons.mp hw with rfl | hw
      · exact Or.inl (List.mem_reverse.mp hc)
      · rcases ih [] w hw c hc with h | h
        · simp at h
        · exact Or.inr (by simp [h])
    · rcases ih (x :: acc) w hw c hc with h | h
      · rcases List.mem_cons.mp h with rfl | h
        · exact Or.inr (by simp)
        · exact Or.inl h
      · exact Or.inr (by simp [h])

theorem mem_joinSep : ∀ (ws : List (List Char)) (c : Char), c ∈ joinSep ws →
    (∃ w ∈ ws, c ∈ w) ∨ c = ' ' := by
  intro ws
  induction ws with
  | nil => intro c hc; simp [joinSep] at hc
  | cons w t ih =>
    intro c hc
    cases t with
    | nil => exact Or.inl ⟨w, by simp, hc⟩
    | cons w2 r =>
      simp only [joinSep] at hc
      rcases List.mem_append.mp hc with h | h
      · exact Or.inl ⟨w, by simp, h⟩
      · rcases List.mem_cons.mp h with rfl | h
        · exact Or.inr rfl
        · rcases ih c h with ⟨w', hw', hcw⟩ | h
          · exact Or.inl ⟨w', by simp [hw'], hcw⟩
          · exact Or.inr h

theorem lt_not_mem_titleCh {nm : List Char} (h : '<' ∉ nm) : '<' ∉ titleCh nm := by
  intro hmem
  simp only [titleCh] at hmem
  rcases mem_joinSep _ _ hmem with ⟨w, hw, hcw⟩ | habs
  · rcases List.mem_map.mp hw with ⟨w', hw', rfl⟩
    have hin : '<' ∈ w' := by
      cases w' with
      | nil => simp [pyCapitalize] at hcw
      | cons x r =>
        simp only [pyCapitalize, List.mem_cons] at hcw
        rcases hcw with hcw | hcw
        · have hx := pyUpperChar_target_lt hcw.symm
          subst hx
          simp
        · rcases List.mem_map.mp hcw with ⟨y, hy, hyl⟩
          have hy2 := pyLowerChar_target_lt hyl
          subst hy2
          simp [hy]
    have hbase := mem_pySplitAux _ [] w' hw' '<' hin
    rcases hbase with habs | hbase
    · simp at habs
    · rcases List.mem_map.mp hbase with ⟨y, hy, hyl⟩
      have hy2 : y = '<' := by
        by_cases hd : y = '-'
        · rw [if_pos hd] at hyl
          exact absurd hyl (by decide)
        · rwa [if_neg hd] at hyl
      subst hy2
      rcases List.mem_map.mp hy with ⟨z, hz, hzl⟩
      have hz2 : z = '<' := by
        by_cases hd : z = '_'
        · rw [if_pos hd] at hzl
          exact absurd hzl (by decide)
        · rwa [if_neg hd] at hzl
      subst hz2
      exact h (mem_splitextRoot hz)
  · exact absurd habs (by decide)

theorem mem_pyLowerStr_lt : ∀ {s : List Char}, '<' ∈ pyLowerStr s → '<' ∈ s := by
  intro s
  induction s with
  | nil => intro h; simp [pyLowerStr] at h
  | cons c t ih =>
    intro h
    simp only [pyLowerStr] at h
    rcases List.mem_append.mp h with h | h
    · by_cases h304 : c.toNat = 304
      · rw [pyLowerCharStr, if_pos h304] at h
        exact absurd h (by decide)
      · rw [pyLowerCharStr_of_ne c h304] at h
        simp only [List.mem_singleton] at h
        have hc := pyLowerChar_target_lt h.symm
        simp [hc]
    · simp [ih h]

theorem lt_not_mem_slugCh (name : List Char) : '<' ∉ slugCh name := by
  intro h
  unfold slugCh at h
  split_ifs at h with hd
  · exact absurd h (by decide)
  · simp only [slugDerived] at h
    have h1 := mem_collapseDashes (mem_pyLowerStr_lt h)
    rcases List.mem_map.mp h1 with ⟨c0, _, hc0⟩
    by_cases hk : isSlugKeep c0 = true
    · rw [if_pos hk] at hc0
      subst hc0
      exact absurd hk (by decide)
    · rw [if_neg hk] at hc0
      exact absurd hc0 (by decide)

/-! ### The category page renderer -/

theorem mem_of_mem_list_subfolders {e : Entry} {es : List Entry}
    (h : e ∈ list_subfolders (some es)) : e ∈ es := by
  simp only [list_subfolders] at h
  exact (List.mem_filter.mp ((List.perm_insertionSort entryLe _).subset h)).1

theorem lt_not_mem_video_name {es : List Entry} {nm : String}
    (h : nm ∈ list_video_files (some es)) (hd : ∀ e ∈ es, '<' ∉ (entryName e).data) :
    '<' ∉ nm.data := by
  simp only [list_video_files] at h
  rcases List.mem_map.mp h with ⟨e, he, rfl⟩
  exact hd e (List.mem_filter.mp ((List.perm_insertionSort entryLe _).subset he)).1

theorem good_subfolderLinkItem {cs nm : String} (hcs : '<' ∉ cs.data) (hnm : '<' ∉ nm.data) :
    noPair '<' 'v' (subfolderLinkItem cs nm).data = true ∧
    (subfolderLinkItem cs nm).data.getLast? ≠ some '<' := by
  unfold subfolderLinkItem
  simp only [String.data_append, List.append_assoc]
  refine noPair_append_good (by decide) (by decide) ?_
  refine noPair_append_good (by decide) (by decide) ?_
  refine noPair_append_good (by decide) (by decide) ?_
  refine noPair_append_good (noPair_of_not_mem hcs) (getLastQ_ne_of_not_mem hcs) ?_
  refine noPair_append_good (by decide) (by decide) ?_
  have hslug : '<' ∉ (slug_from_name nm).data := lt_not_mem_slugCh nm.data
  refine noPair_append_good (noPair_of_not_mem hslug) (getLastQ_ne_of_not_mem hslug) ?_
  refine noPair_append_good (by decide) (by decide) ?_
  have htitle : '<' ∉ (title_from_name nm).data := lt_not_mem_titleCh hnm
  exact noPair_append_good (noPair_of_not_mem htitle) (getLastQ_ne_of_not_mem htitle)
    ⟨by decide, by decide⟩

theorem good_catVideoBlock {cs nm : String} (hcs : '<' ∉ cs.data) (hnm : '<' ∉ nm.data) :
    noPair '<' 'l' (catVideoBlock cs nm).data = true ∧
    (catVideoBlock cs nm).data.getLast? ≠ some '<' := by
  unfold catVideoBlock videoBlock
  simp only [String.data_append, List.append_assoc]
  refine noPair_append_good (by decide) (by decide) ?_
  refine noPair_append_good (by decide) (by decide) ?_
  refine noPair_append_good (by decide) (by decide) ?_
  refine noPair_append_good (noPair_of_not_mem hcs) (getLastQ_ne_of_not_mem hcs) ?_
  refine noPair_append_good (by decide) (by decide) ?_
  refine noPair_append_good (noPair_of_not_mem hnm) (getLastQ_ne_of_not_mem hnm) ?_
  refine noPair_append_good (by decide) (by decide) ?_
  have htitle : '<' ∉ (title_from_name nm).data := lt_not_mem_titleCh hnm
  exact noPair_append_good (noPair_of_not_mem htitle) (getLastQ_ne_of_not_mem htitle)
    ⟨by decide, by decide⟩

theorem good_joinAll {a b : Char} {α : Type} {f : α → String} : ∀ (l : List α),
    (∀ e ∈ l, noPair a b (f e).data = true ∧ (f e).data.getLast? ≠ some a) →
    noPair a b (joinAll (l.map f)).data = true ∧
    (joinAll (l.map f)).data.getLast? ≠ some a := by
  intro l
  induction l with
  | nil => intro _; exact ⟨rfl, by simp [joinAll]⟩
  | cons e t ih =>
    intro h
    simp only [List.map_cons, joinAll, String.data_append]
    exact noPair_append_good (h e (by simp)).1 (h e (by simp)).2
      (ih (fun x hx => h x (by simp [hx])))

theorem hasSub_joinAll {α : Type} {f : α → String} {e : α} : ∀ {l : List α}, e ∈ l →
    hasSub (f e).data (joinAll (l.map f)).data = true := by
  intro l
  induction l with
  | nil => intro h; simp at h
  | cons x t ih =>
    intro h
    simp only [List.map_cons, joinAll, String.data_append]
    rcases List.mem_cons.mp h with rfl | h
    · exact hasSub_append_left _ _ _ (hasSub_self _)
    · exact hasSub_append_right _ _ _ (ih h)

example (cs ct : String) (d : List Entry) (h0 : list_subfolders (some d) ≠ []) :
    make_category_body cs ct (some d) =
      "\n<h1>" ++ ct ++ "</h1>\n\n<ul>\n    "
        ++ joinAll ((list_subfolders (some d)).map (fun sub => subfolderLinkItem cs (entryName sub)))
        ++ "\n</ul>\n\n<p><a href=\"" ++ BASE_URL ++ "/index.html\">Back to home</a></p>\n" := by
  have hne : (list_subfolders (some d)).isEmpty = false := by
    rw [Bool.eq_false_iff]
    exact fun hh => h0 (List.isEmpty_iff.mp hh)
  simp only [make_category_body, hne]
  rw [if_neg (by decide)]

example (cs ct : String) (d : List Entry) (h0 : list_subfolders (some d) = []) :
    make_category_body cs ct (some d) =
      "\n<h1>" ++ ct ++ "</h1>\n"
        ++ joinAll (if ((list_video_files (some d)).map (fun n => catVideoBlock cs n)).isEmpty
            then ["<p>No videos available yet.</p>"]
            else (list_video_files (some d)).map (fun n => catVideoBlock cs n))
        ++ "\n<p><a href=\"" ++ BASE_URL ++ "/index.html\">Back to home</a></p>\n" := by
  simp only [make_category_body, h0, List.isEmpty_nil]
  rw [if_pos trivial]

theorem catBody_of_subfolders (cs ct : String) (d : List Entry)
    (h0 : list_subfolders (some d) ≠ []) :
    make_category_body cs ct (some d) =
      "\n<h1>" ++ ct ++ "</h1>\n\n<ul>\n    "
        ++ joinAll ((list_subfolders (some d)).map (fun sub => subfolderLinkItem cs (entryName sub)))
        ++ "\n</ul>\n\n<p><a href=\"" ++ BASE_URL ++ "/index.html\">Back to home</a></p>\n" := by
  have hne : (list_subfolders (some d)).isEmpty = false := by
    rw [Bool.eq_false_iff]
    exact fun hh => h0 (List.isEmpty_iff.mp hh)
  simp only [make_category_body, hne]
  rw [if_neg (by decide)]

theorem catBody_of_no_subfolders (cs ct : String) (d : List Entry)
    (h0 : list_subfolders (some d) = []) :
    make_category_body cs ct (some d) =
      "\n<h1>" ++ ct ++ "</h1>\n"
        ++ joinAll (if ((list_video_files (some d)).map (fun n => catVideoBlock cs n)).isEmpty
            then ["<p>No videos available yet.</p>"]
            else (list_video_files (some d)).map (fun n => catVideoBlock cs n))
        ++ "\n<p><a href=\"" ++ BASE_URL ++ "/index.html\">Back to home</a></p>\n" := by
  simp only [make_category_body, h0, List.isEmpty_nil]
  rw [if_pos trivial]

/-- C3: the body of a category page always contains the back-link to the
index; when the directory has subfolders the body contains one link item
per subfolder (to `{base_url}/{category_slug}/{subfolder_slug}.html`,
labeled by the derived title) and no video block (no occurrence of
`<video`); when it has none it contains one video block per media file
directly in the directory and no subfolder link item (no occurrence of
`<li`); when it has neither it contains the placeholder
"No videos available yet."; and the page is header ++ body ++ footer.
The hypotheses record the spec's trusted-input constraint (§7): interpolated
names and titles are curated and contain no `<`. -/
theorem category_page_spec (tt tb cs ct : String) (d : List Entry)
    (hcs : '<' ∉ cs.data) (hct : '<' ∉ ct.data)
    (hd : ∀ e ∈ d, '<' ∉ (entryName e).data) :
    hasSub "<a href=\"/animations/index.html\">Back to home</a>".data
      (make_category_body cs ct (some d)).data = true ∧
    (list_subfolders (some d) ≠ [] →
      (∀ e ∈ list_subfolders (some d),
        hasSub (subfolderLinkItem cs (entryName e)).data
          (make_category_body cs ct (some d)).data = true) ∧
      hasSub "<video".data (make_category_body cs ct (some d)).data = false) ∧
    (list_subfolders (some d) = [] →
      (∀ nm ∈ list_video_files (some d),
        hasSub (catVideoBlock cs nm).data
          (make_category_body cs ct (some d)).data = true) ∧
      hasSub "<li".data (make_category_body cs ct (some d)).data = false) ∧
    (list_subfolders (some d) = [] → list_video_files (some d) = [] →
      hasSub "<p>No videos available yet.</p>".data
        (make_category_body cs ct (some d)).data = true) ∧
    make_category_page tt tb cs ct (some d) = tt ++ make_category_body cs ct (some d) ++ tb := by
  by_cases h0 : list_subfolders (some d) = []
  · have hb := catBody_of_no_subfolders cs ct d h0
    refine ⟨?_, ?_, ?_, ?_, rfl⟩
    · rw [hb]
      simp only [String.data_append, List.append_assoc]
      apply hasSub_append_right
      apply hasSub_append_right
      apply hasSub_append_right
      apply hasSub_append_right
      decide
    · intro hcontra
      exact absurd h0 hcontra
    · refine fun _ => ⟨?_, ?_⟩
      · intro nm hnm
        have hne : ((list_video_files (some d)).map (fun n => catVideoBlock cs n)).isEmpty
            = false := by
          rw [Bool.eq_false_iff]
          intro hh
          rw [List.isEmpty_iff, List.map_eq_nil_iff] at hh
          rw [hh] at hnm
          simp at hnm
        rw [hb]
        simp only [String.data_append, List.append_assoc]
        apply hasSub_append_right
        apply hasSub_append_right
        apply hasSub_append_right
        apply hasSub_append_left
        rw [hne, if_neg (by decide)]
        exact @hasSub_joinAll String (fun n => catVideoBlock cs n) nm
          (list_video_files (some d)) hnm
      · have hnp : noPair '<' 'l' (make_category_body cs ct (some d)).data = true := by
          rw [hb]
          simp only [String.data_append, List.append_assoc]
          refine (noPair_append_good (by decide) (by decide) ?_).1
          refine noPair_append_good (noPair_of_not_mem hct) (getLastQ_ne_of_not_mem hct) ?_
          refine noPair_append_good (by decide) (by decide) ?_
          have hJ : noPair '<' 'l' (joinAll
                (if ((list_video_files (some d)).map (fun n => catVideoBlock cs n)).isEmpty
                  then ["<p>No videos available yet.</p>"]
                  else (list_video_files (some d)).map (fun n => catVideoBlock cs n))).data
                = true ∧
              (joinAll
                (if ((list_video_files (some d)).map (fun n => catVideoBlock cs n)).isEmpty
                  then ["<p>No videos available yet.</p>"]
                  else (list_video_files (some d)).map (fun n => catVideoBlock cs n))).data.getLast?
                ≠ some '<' := by
            by_cases hv0 : list_video_files (some d) = []
            · rw [hv0]
              simp only [List.map_nil, List.isEmpty_nil]
              rw [if_pos trivial]
              exact ⟨by decide, by decide⟩
            · have hne : ((list_video_files (some d)).map
                  (fun n => catVideoBlock cs n)).isEmpty = false := by
                rw [Bool.eq_false_iff]
                intro hh
                rw [List.isEmpty_iff, List.map_eq_nil_iff] at hh
                exact hv0 hh
              rw [hne, if_neg (by decide)]
              exact good_joinAll (list_video_files (some d))
                (fun nm hnm => good_catVideoBlock hcs (lt_not_mem_video_name hnm hd))
          exact noPair_append_good hJ.1 hJ.2
            (noPair_append_good (by decide) (by decide)
              (noPair_append_good (by decide) (by decide) ⟨by decide, by decide⟩))
        exact @hasSub_eq_false_of_noPair '<' 'l' "i".data _ hnp
    · intro _ hv0
      rw [hb]
      simp only [String.data_append, List.append_assoc]
      apply hasSub_append_right
      apply hasSub_append_right
      rw [hv0]
      simp only [List.map_nil, List.isEmpty_nil]
      rw [if_pos trivial]
      decide
  · have hb := catBody_of_subfolders cs ct d h0
    refine ⟨?_, ?_, ?_, ?_, rfl⟩
    · rw [hb]
      simp only [String.data_append, List.append_assoc]
      apply hasSub_append_right
      apply hasSub_append_right
      apply hasSub_append_right
      apply hasSub_append_right
      decide
    · refine fun _ => ⟨?_, ?_⟩
      · intro e he
        rw [hb]
        simp only [String.data_append, List.append_assoc]
        apply hasSub_append_right
        apply hasSub_append_right
        apply hasSub_append_right
        apply hasSub_append_left
        exact @hasSub_joinAll Entry (fun sub => subfolderLinkItem cs (entryName sub)) e
          (list_subfolders (some d)) he
      · have hnp : noPair '<' 'v' (make_category_body cs ct (some d)).data = true := by
          rw [hb]
          simp only [String.data_append, List.append_assoc]
          refine (noPair_append_good (by decide) (by decide) ?_).1
          refine noPair_append_good (noPair_of_not_mem hct) (getLastQ_ne_of_not_mem hct) ?_
          refine noPair_append_good (by decide) (by decide) ?_
          have hJ : noPair '<' 'v' (joinAll ((list_subfolders (some d)).map
                (fun sub => subfolderLinkItem cs (entryName sub)))).data = true ∧
              (joinAll ((list_subfolders (some d)).map
                (fun sub => subfolderLinkItem cs (entryName sub)))).data.getLast? ≠ some '<' :=
            good_joinAll (list_subfolders (some d))
              (fun e he => good_subfolderLinkItem hcs (hd e (mem_of_mem_list_subfolders he)))
          exact noPair_append_good hJ.1 hJ.2
            (noPair_append_good (by decide) (by decide)
              (noPair_append_good (by decide) (by decide) ⟨by decide, by decide⟩))
        exact @hasSub_eq_false_of_noPair '<' 'v' "ideo".data _ hnp
    · intro hcontra
      exact absurd hcontra h0
    · intro hcontra _
      exact absurd hcontra h0

/-- C3 witness: the category-page theorem at the concrete one-subfolder
directory `demoCategoryDir`, hypotheses discharged by computation. -/
theorem category_page_spec_witness :
    hasSub "<a href=\"/animations/index.html\">Back to home</a>".data
      (make_category_body "plaxis" "PLAXIS" (some demoCategoryDir)).data = true ∧
    (list_subfolders (some demoCategoryDir) ≠ [] →
      (∀ e ∈ list_subfolders (some demoCategoryDir),
        hasSub (subfolderLinkItem "plaxis" (entryName e)).data
          (make_category_body "plaxis" "PLAXIS" (some demoCategoryDir)).data = true) ∧
      hasSub "<video".data
        (make_category_body "plaxis" "PLAXIS" (some demoCategoryDir)).data = false) ∧
    (list_subfolders (some demoCategoryDir) = [] →
      (∀ nm ∈ list_video_files (some demoCategoryDir),
        hasSub (catVideoBlock "plaxis" nm).data
          (make_category_body "plaxis" "PLAXIS" (some demoCategoryDir)).data = true) ∧
      hasSub "<li".data
        (make_category_body "plaxis" "PLAXIS" (some demoCategoryDir)).data = false) ∧
    (list_subfolders (some demoCategoryDir) = [] →
      list_video_files (some demoCategoryDir) = [] →
      hasSub "<p>No videos available yet.</p>".data
        (make_category_body "plaxis" "PLAXIS" (some demoCategoryDir)).data = true) ∧
    make_category_page "TOP" "BOT" "plaxis" "PLAXIS" (some demoCategoryDir) =
      "TOP" ++ make_category_body "plaxis" "PLAXIS" (some demoCategoryDir) ++ "BOT" :=
  category_page_spec "TOP" "BOT" "plaxis" "PLAXIS" demoCategoryDir
    (by decide) (by decide) (by decide)
